import Mathlib

/-!
Verification of the CryptoSpike ledger/consensus core (`python_crypto_currency`).

The Python source is shallowly embedded: classes become structures, methods
become pure functions on explicit state, the unbounded proof-of-work loop gets
an explicit fuel parameter (partial correctness), and the SHA-256 primitive —
an external trusted library per the design document — is a parameter
`H : String → String` of every hashing operation.  Python's `str()` rendering
of natural numbers is modelled by `natToString`, a decimal renderer proved
injective below.
-/

namespace CryptoSpike

/-- Mirrors `transaction.py` `Transaction.__init__`: sender, receiver, amount,
optional hex signature.  Amounts are modelled as naturals (the design document
requires `amount ≥ 0`). -/
structure Transaction where
  sender : String
  receiver : String
  amount : Nat
  signature : Option String
deriving DecidableEq, Repr

/-- Mirrors `block.py` `Block`: index, previous hash, timestamp, transactions,
nonce and the stored hash field. -/
structure Block where
  index : Nat
  previous_hash : String
  timestamp : Nat
  transactions : List Transaction
  nonce : Nat
  hash : String
deriving DecidableEq, Repr

/-- Mirrors `blockchain.py` `Blockchain.__init__` state: chain, difficulty,
mempool and the mining reward constant. -/
structure Blockchain where
  chain : List Block
  difficulty : Nat
  pending_transactions : List Transaction
  mining_reward : Nat
deriving DecidableEq, Repr

/-- The data carried by the `ValueError` raised in `create_transaction`:
sender, current balance ("has"), required amount ("needs"). -/
structure InsufficientBalance where
  sender : String
  has : Int
  needs : Nat
deriving DecidableEq, Repr

/-! ## Decimal rendering (model of Python `str` on numbers) -/

/-- Little-endian decimal digits of `n`, with explicit fuel (the fuel `n`
itself always suffices). -/
def natDigitsRevAux : Nat → Nat → List Nat
  | 0, _ => []
  | fuel + 1, n => if n = 0 then [] else n % 10 :: natDigitsRevAux fuel (n / 10)

/-- Little-endian decimal digits of `n`. -/
def natDigitsRev (n : Nat) : List Nat := natDigitsRevAux n n

/-- Value of a little-endian digit list. -/
def digitsVal : List Nat → Nat
  | [] => 0
  | d :: ds => d + 10 * digitsVal ds

/-- Decimal rendering of a natural number, as Python `str` produces it. -/
def natToString (n : Nat) : String :=
  if n = 0 then "0" else String.mk ((natDigitsRev n).reverse.map Nat.digitChar)

/-- Python string slicing `s[:n]` (by code point). -/
def strTake (s : String) (n : Nat) : String := String.mk (s.data.take n)

/-- Python `"".join`, i.e. concatenation of a list of strings. -/
def strJoin : List String → String
  | [] => ""
  | s :: rest => s ++ strJoin rest

/-! ## Hashing model

`block.py` hashes `f"{index}{previous_hash}{timestamp}{tx_data}{nonce}"` with
`hashlib.sha256(...).hexdigest()`, where `tx_data` joins `str(tx)` over the
transactions.  SHA-256 is an external trusted primitive, so it is a parameter
`H : String → String` throughout; tamper-evidence theorems assume `H` is
injective (collision freeness on the strings encountered). -/

/-- Mirrors `Transaction.__repr__`:
`f"{self.sender[:8]}... -> {self.receiver[:8]}...: {self.amount}"`. -/
def txRepr (tx : Transaction) : String :=
  strTake tx.sender 8 ++ "... -> " ++ strTake tx.receiver 8 ++ "...: " ++
    natToString tx.amount

/-- Mirrors `tx_data = "".join(str(tx) for tx in self.transactions)`. -/
def txData (ts : List Transaction) : String := strJoin (ts.map txRepr)

/-- The string hashed in `Block.calculate_hash`:
`f"{self.index}{self.previous_hash}{self.timestamp}{tx_data}{self.nonce}"`.
Does not read the stored `hash` field. -/
def contentOf (b : Block) : String :=
  natToString b.index ++ b.previous_hash ++ natToString b.timestamp ++
    txData b.transactions ++ natToString b.nonce

/-- Mirrors `Block.calculate_hash`. -/
def calculateHash (H : String → String) (b : Block) : String := H (contentOf b)

/-- Mirrors `Block.__init__`: fields are stored and then
`self.hash = self.calculate_hash()`.  The construction timestamp (Python's
`time.time()` default) is an explicit parameter. -/
def Block.make (H : String → String) (index : Nat) (previous_hash : String)
    (transactions : List Transaction) (timestamp : Nat) (nonce : Nat) : Block :=
  let b0 : Block := ⟨index, previous_hash, timestamp, transactions, nonce, ""⟩
  { b0 with hash := calculateHash H b0 }

/-! ## Ledger operations (`blockchain.py`) -/

/-- Mirrors `create_genesis_block`: index 0, previous hash `"0"`, a single
`Transaction("network", "genesis", 0)`; the timestamp defaults to the
construction time `now`. -/
def createGenesisBlock (H : String → String) (now : Nat) : Block :=
  Block.make H 0 "0" [⟨"network", "genesis", 0, none⟩] now 0

/-- Mirrors `Blockchain.__init__(difficulty)` at construction time `now`. -/
def Blockchain.init (H : String → String) (difficulty : Nat) (now : Nat) :
    Blockchain :=
  ⟨[createGenesisBlock H now], difficulty, [], 100⟩

/-- Mirrors `get_latest_block` (`self.chain[-1]`; the chain is never empty). -/
def getLatestBlock (st : Blockchain) : Block :=
  st.chain.getLastD ⟨0, "", 0, [], 0, ""⟩

/-- Per-transaction contribution to an address's balance: `+amount` when the
address is the receiver, `-amount` when it is the sender (both clauses of the
loop body in `get_balance`). -/
def txBalanceEffect (address : String) (tx : Transaction) : Int :=
  (if tx.receiver = address then (tx.amount : Int) else 0) -
    (if tx.sender = address then (tx.amount : Int) else 0)

/-- Net effect of one block's transactions on an address's balance. -/
def blockTxEffect (address : String) (b : Block) : Int :=
  (b.transactions.map (txBalanceEffect address)).sum

/-- Mirrors `get_balance`: fold over every confirmed transaction in the chain,
then over the mempool. -/
def balanceOf (chain : List Block) (pending : List Transaction)
    (address : String) : Int :=
  (chain.map (blockTxEffect address)).sum +
    (pending.map (txBalanceEffect address)).sum

/-- Mirrors `Blockchain.get_balance`. -/
def getBalance (st : Blockchain) (address : String) : Int :=
  balanceOf st.chain st.pending_transactions address

/-- Mirrors `create_transaction`: when the sender is not `"network"` and its
balance is below the amount, a `ValueError` is raised (first component) and
the state is left unchanged; otherwise the transaction is appended to the
mempool. -/
def createTransaction (st : Blockchain) (tx : Transaction) :
    Option InsufficientBalance × Blockchain :=
  if tx.sender ≠ "network" ∧ getBalance st tx.sender < (tx.amount : Int) then
    (some ⟨tx.sender, getBalance st tx.sender, tx.amount⟩, st)
  else
    (none, { st with pending_transactions := st.pending_transactions ++ [tx] })

/-- Mirrors `block.hash.startswith("0" * difficulty)`. -/
def meetsDifficulty (d : Nat) (h : String) : Bool :=
  (List.replicate d '0').isPrefixOf h.data

/-- One iteration of the `mine_block` loop body: `block.nonce += 1;
block.hash = block.calculate_hash()`. -/
def mineStep (H : String → String) (b : Block) : Block :=
  let b1 : Block := { b with nonce := b.nonce + 1 }
  { b1 with hash := calculateHash H b1 }

/-- Mirrors the unbounded `while` loop of `mine_block`, with explicit fuel:
`some` exactly when the loop exits within `fuel` iterations. -/
def mineBlock (H : String → String) (d : Nat) (fuel : Nat) (b : Block) :
    Option Block :=
  match fuel with
  | 0 => if meetsDifficulty d b.hash then some b else none
  | f + 1 =>
    if meetsDifficulty d b.hash then some b else mineBlock H d f (mineStep H b)

/-- Mirrors `mine_pending_transactions(miner_address)` at time `now`: build the
candidate block from the mempool plus the reward transaction, mine it, append
it to the chain and truncate the mempool.  `none` when the (fuelled) mining
loop does not finish. -/
def minePendingTransactions (H : String → String) (fuel : Nat)
    (st : Blockchain) (minerAddress : String) (now : Nat) : Option Blockchain :=
  let rewardTx : Transaction := ⟨"network", minerAddress, st.mining_reward, none⟩
  let txs := st.pending_transactions ++ [rewardTx]
  let newBlock := Block.make H ((getLatestBlock st).index + 1)
    (getLatestBlock st).hash txs now 0
  match mineBlock H st.difficulty fuel newBlock with
  | some mined =>
    some { st with chain := st.chain ++ [mined], pending_transactions := [] }
  | none => none

/-- The three checks of one iteration of `is_chain_valid` /
`is_chain_valid_external`, in source order: stored hash equals the recomputed
hash, `previous_hash` links to the previous block, and the hash meets the
difficulty target. -/
def chainStepOk (H : String → String) (d : Nat) (prev cur : Block) : Bool :=
  decide (cur.hash = calculateHash H cur) &&
    decide (cur.previous_hash = prev.hash) && meetsDifficulty d cur.hash

/-- Mirrors the `for i in range(1, len(chain))` loop of `is_chain_valid` and
`is_chain_valid_external`: the step checks run on each adjacent pair in
ascending order, returning false at the first violation. -/
def isChainValid (H : String → String) (d : Nat) : List Block → Bool
  | [] => true
  | [_] => true
  | p :: c :: rest => chainStepOk H d p c && isChainValid H d (c :: rest)

/-! ## Node operations (`node.py`) -/

/-- The `(sender, receiver, amount)` triple used for duplicate detection. -/
def txKey (tx : Transaction) : String × String × Nat :=
  (tx.sender, tx.receiver, tx.amount)

/-- The set comprehension over all confirmed transactions built in
`merge_mempool` and `clean_mempool_from_chain`. -/
def confirmedSet (chain : List Block) : List (String × String × Nat) :=
  (chain.map (fun b => b.transactions.map txKey)).flatten

/-- Mirrors `clean_mempool_from_chain`: drop every pending transaction whose
triple already appears confirmed in the chain. -/
def cleanMempoolFromChain (st : Blockchain) : Blockchain :=
  let keep := fun tx => decide (txKey tx ∉ confirmedSet st.chain)
  { st with pending_transactions := st.pending_transactions.filter keep }

/-- Mirrors the reconstruction in `receive_block`: `Block(...)` recomputes a
hash in `__init__`, which is then overwritten verbatim with the payload's
`hash` field. -/
def reconstructBlock (H : String → String) (p : Block) : Block :=
  let b := Block.make H p.index p.previous_hash p.transactions p.timestamp
    p.nonce
  { b with hash := p.hash }

/-- Mirrors `receive_block`: accept (append + clean mempool, flag `true`) iff
the local head's hash equals the payload's `previous_hash`; otherwise leave
the state unchanged and flag `false` (the endpoint then triggers a full
resolve). -/
def receiveBlock (H : String → String) (st : Blockchain) (p : Block) :
    Blockchain × Bool :=
  let block := reconstructBlock H p
  if (getLatestBlock st).hash = block.previous_hash then
    (cleanMempoolFromChain { st with chain := st.chain ++ [block] }, true)
  else
    (st, false)

/-- The peer loop of `fetch_all_peers_and_resolve`: each successfully fetched
and reconstructed candidate chain replaces the running best iff it is strictly
longer than the running maximum and passes `is_chain_valid_external`. -/
def resolveLoop (H : String → String) (d : Nat) :
    List (List Block) → List Block → Nat → List Block
  | [], best, _ => best
  | c :: rest, best, maxLen =>
    if c.length > maxLen ∧ isChainValid H d c = true then
      resolveLoop H d rest c c.length
    else
      resolveLoop H d rest best maxLen

/-- Mirrors `fetch_all_peers_and_resolve` over the successfully fetched peer
chains: run the loop starting from the local chain and its length, then
replace (and clean the mempool) iff the winner differs from the local chain.
In the source the final comparison is Python `!=` over lists of `Block`
objects, which is element-wise identity; it is `False` exactly when no
candidate won, matching structural equality here because every winner is
strictly longer than the local chain. -/
def fetchAllPeersAndResolve (H : String → String) (st : Blockchain)
    (candidates : List (List Block)) : Blockchain × Bool :=
  let best := resolveLoop H st.difficulty candidates st.chain st.chain.length
  if best ≠ st.chain then
    (cleanMempoolFromChain { st with chain := best }, true)
  else
    (st, false)

/-- A Python `Transaction` object: its field values plus its object identity
(`oid`).  Object identity decides `tx in chain.pending_transactions` in
`merge_mempool`, because `Transaction` defines no `__eq__`. -/
structure TxObj where
  val : Transaction
  oid : Nat
deriving DecidableEq, Repr

/-- Python `tx in list` under default object equality: identity comparison. -/
def pyIn (t : TxObj) (l : List TxObj) : Bool := l.any (fun o => o.oid == t.oid)

/-- The `for tx in new_txs` loop of `merge_mempool`: skip when the triple is
confirmed, skip when `tx in chain.pending_transactions` (identity!), otherwise
run `create_transaction` inside `try/except` — an `InsufficientBalance` error
is swallowed, a success appends the object and bumps the count.  The balance
test is delegated to `createTransaction` on the untagged values (difficulty
and reward do not affect it). -/
def mergeLoop (chain : List Block) (conf : List (String × String × Nat)) :
    List TxObj → List TxObj → Nat → List TxObj × Nat
  | [], pending, count => (pending, count)
  | t :: rest, pending, count =>
    if txKey t.val ∈ conf then
      mergeLoop chain conf rest pending count
    else if pyIn t pending then
      mergeLoop chain conf rest pending count
    else if (createTransaction ⟨chain, 0, pending.map TxObj.val, 0⟩ t.val).1.isSome then
      mergeLoop chain conf rest pending count
    else
      mergeLoop chain conf rest (pending ++ [t]) (count + 1)

/-- Mirrors `merge_mempool`: deserialize the incoming transactions into fresh
objects (object ids `freshBase`, `freshBase + 1`, …, all new), then run the
admission loop. -/
def mergeMempool (chain : List Block) (pending : List TxObj) (freshBase : Nat)
    (incoming : List Transaction) : List TxObj × Nat :=
  let newTxs := incoming.enum.map (fun p => TxObj.mk p.2 (freshBase + p.1))
  mergeLoop chain (confirmedSet chain) newTxs pending 0

/-! ## Concrete instances (used by witnesses and counterexamples) -/

/-- A concrete injective stand-in for the trusted hash primitive, used when a
witness must evaluate. -/
def idHash : String → String := fun s => s

/-- A genesis block built at time 5. -/
def g0 : Block := createGenesisBlock idHash 5

/-- A correctly linked and hashed successor of `g0`. -/
def b1 : Block := Block.make idHash 1 g0.hash [⟨"network", "A", 7, none⟩] 6 0

/-- A two-block chain that is valid at difficulty 0 under `idHash`. -/
def chainW : List Block := [g0, b1]

/-- A one-block local node state at difficulty 0. -/
def stW4 : Blockchain := ⟨[g0], 0, [], 100⟩

/-- A one-block local node state at difficulty 4. -/
def stW10 : Blockchain := ⟨[g0], 4, [], 100⟩

/-- A payload extending `g0` whose stored hash neither matches its recomputed
digest nor meets any positive difficulty. -/
def pBad : Block := ⟨1, g0.hash, 99, [], 7, "deadbeef"⟩

/-- Ledger whose mempool mints 100 to "A": address "A" has balance 100. -/
def stC5 : Blockchain :=
  ⟨[createGenesisBlock idHash 0], 2, [⟨"network", "A", 100, none⟩], 100⟩

/-- An unsigned transaction spending 5 from "A". -/
def txC5 : Transaction := ⟨"A", "B", 5, none⟩

/-- An overspending transaction from "B", whose balance in `stC5` is 0. -/
def txC3 : Transaction := ⟨"B", "A", 50, none⟩

/-- Difficulty-0 ledger with one pending mint of 5 to "A". -/
def stC6 : Blockchain :=
  ⟨[createGenesisBlock idHash 0], 0, [⟨"network", "A", 5, none⟩], 100⟩

/-- The result of mining `stC6` (difficulty 0, so fuel 0 suffices). -/
def mineOutcomeC6 : Option Blockchain :=
  minePendingTransactions idHash 0 stC6 "M" 1

/-- Balance of "A" after that mining step. -/
def newBalC6 : Option Int := mineOutcomeC6.map (fun s => getBalance s "A")

/-- What the linearity sentence predicts for "A": prior balance plus the
confirmed received-minus-sent of the mined block. -/
def claimedBalC6 : Option Int :=
  mineOutcomeC6.map (fun s => getBalance stC6 "A" + blockTxEffect "A" (getLatestBlock s))

/-- The mined state, extracted. -/
def cSt6 : Blockchain := mineOutcomeC6.getD ⟨[], 0, [], 0⟩

/-- The reward transaction of that mining step. -/
def rewardC6 : Transaction := ⟨"network", "M", 100, none⟩

/-- A mint transaction already sitting in the mempool. -/
def txC9 : Transaction := ⟨"network", "A", 5, none⟩

/-- A one-block chain (no confirmed duplicates of `txC9`). -/
def chainC9 : List Block := [createGenesisBlock idHash 0]

/-- A mempool already holding an object with the value of `txC9`. -/
def pendingC9 : List TxObj := [⟨txC9, 0⟩]

/-! ## Rendering lemmas -/

theorem digitsVal_natDigitsRevAux : ∀ fuel n, n ≤ fuel →
    digitsVal (natDigitsRevAux fuel n) = n := by
  intro fuel
  induction fuel with
  | zero => intro n hn; interval_cases n; rfl
  | succ f ih =>
    intro n hn
    by_cases h0 : n = 0
    · subst h0; simp [natDigitsRevAux, digitsVal]
    · have hdiv : n / 10 ≤ f := by
        have : n / 10 < n := Nat.div_lt_self (Nat.pos_of_ne_zero h0) (by omega)
        omega
      simp only [natDigitsRevAux, h0, if_false, digitsVal]
      rw [ih (n / 10) hdiv]
      exact Nat.mod_add_div n 10

theorem digitsVal_natDigitsRev (n : Nat) : digitsVal (natDigitsRev n) = n :=
  digitsVal_natDigitsRevAux n n (Nat.le_refl n)

theorem natDigitsRevAux_lt : ∀ fuel n d, d ∈ natDigitsRevAux fuel n → d < 10 := by
  intro fuel
  induction fuel with
  | zero => intro n d hd; simp [natDigitsRevAux] at hd
  | succ f ih =>
    intro n d hd
    by_cases h0 : n = 0
    · subst h0; simp [natDigitsRevAux] at hd
    · simp only [natDigitsRevAux, h0, if_false, List.mem_cons] at hd
      rcases hd with h | h
      · subst h; exact Nat.mod_lt n (by omega)
      · exact ih _ _ h

theorem natDigitsRev_lt (n d : Nat) (hd : d ∈ natDigitsRev n) : d < 10 :=
  natDigitsRevAux_lt n n d hd

theorem digitChar_inj_lt (a b : Nat) (ha : a < 10) (hb : b < 10)
    (h : Nat.digitChar a = Nat.digitChar b) : a = b := by
  interval_cases a <;> interval_cases b <;> revert h <;> decide

theorem map_digitChar_inj : ∀ (l1 l2 : List Nat), (∀ d ∈ l1, d < 10) →
    (∀ d ∈ l2, d < 10) → l1.map Nat.digitChar = l2.map Nat.digitChar → l1 = l2 := by
  intro l1
  induction l1 with
  | nil => intro l2 _ _ h; cases l2 <;> simp_all
  | cons a t ih =>
    intro l2 h1 h2 h
    cases l2 with
    | nil => simp at h
    | cons b t2 =>
      simp only [List.map_cons, List.cons.injEq] at h
      have ha : a = b := digitChar_inj_lt a b (h1 a (by simp)) (h2 b (by simp)) h.1
      have ht : t = t2 := ih t2 (fun d hd => h1 d (by simp [hd]))
        (fun d hd => h2 d (by simp [hd])) h.2
      rw [ha, ht]

theorem natToString_inj {m n : Nat} (h : natToString m = natToString n) : m = n := by
  by_cases hm : m = 0 <;> by_cases hn : n = 0
  · omega
  · exfalso
    simp only [natToString, hm, hn, if_true, if_false] at h
    have hd : (["0".data.head!] : List Char) = (natDigitsRev n).reverse.map Nat.digitChar := by
      have := congrArg String.data h
      simpa using this
    have : ∃ d, (natDigitsRev n).reverse = [d] ∧ Nat.digitChar d = '0' := by
      rcases hrev : (natDigitsRev n).reverse with _ | ⟨d, tl⟩
      · rw [hrev] at hd; simp at hd
      · rw [hrev] at hd
        cases tl with
        | nil => exact ⟨d, rfl, by simpa using hd.symm⟩
        | cons e tl2 => simp at hd
    obtain ⟨d, hrev, hchar⟩ := this
    have hlist : natDigitsRev n = [d] := by
      have := congrArg List.reverse hrev
      simpa using this
    have hd10 : d < 10 := natDigitsRev_lt n d (by rw [hlist]; simp)
    have hd0 : d = 0 := digitChar_inj_lt d 0 hd10 (by omega) (by rw [hchar]; rfl)
    have := digitsVal_natDigitsRev n
    rw [hlist, hd0] at this
    simp [digitsVal] at this
    omega
  · exfalso
    simp only [natToString, hm, hn, if_true, if_false] at h
    have hd : (["0".data.head!] : List Char) = (natDigitsRev m).reverse.map Nat.digitChar := by
      have := congrArg String.data h.symm
      simpa using this
    have : ∃ d, (natDigitsRev m).reverse = [d] ∧ Nat.digitChar d = '0' := by
      rcases hrev : (natDigitsRev m).reverse with _ | ⟨d, tl⟩
      · rw [hrev] at hd; simp at hd
      · rw [hrev] at hd
        cases tl with
        | nil => exact ⟨d, rfl, by simpa using hd.symm⟩
        | cons e tl2 => simp at hd
    obtain ⟨d, hrev, hchar⟩ := this
    have hlist : natDigitsRev m = [d] := by
      have := congrArg List.reverse hrev
      simpa using this
    have hd10 : d < 10 := natDigitsRev_lt m d (by rw [hlist]; simp)
    have hd0 : d = 0 := digitChar_inj_lt d 0 hd10 (by omega) (by rw [hchar]; rfl)
    have := digitsVal_natDigitsRev m
    rw [hlist, hd0] at this
    simp [digitsVal] at this
    omega
  · simp only [natToString, hm, hn, if_false] at h
    have hdata := congrArg String.data h
    simp only at hdata
    have hrev : (natDigitsRev m).reverse = (natDigitsRev n).reverse :=
      map_digitChar_inj _ _
        (fun d hd => natDigitsRev_lt m d (by simpa using hd))
        (fun d hd => natDigitsRev_lt n d (by simpa using hd)) hdata
    have hlist : natDigitsRev m = natDigitsRev n := by
      have := congrArg List.reverse hrev
      simpa using this
    have h1 := digitsVal_natDigitsRev m
    have h2 := digitsVal_natDigitsRev n
    rw [hlist] at h1
    omega

/-! ## String helpers -/

theorem strData_append (a b : String) : (a ++ b).data = a.data ++ b.data := rfl

theorem strExt {a b : String} (h : a.data = b.data) : a = b := by
  cases a; cases b; exact congrArg String.mk h

theorem strCancelLeft {a b c : String} (h : a ++ b = a ++ c) : b = c := by
  have hd := congrArg String.data h
  rw [strData_append, strData_append] at hd
  exact strExt (List.append_cancel_left hd)

theorem strCancelRight {a b c : String} (h : a ++ c = b ++ c) : a = b := by
  have hd := congrArg String.data h
  rw [strData_append, strData_append] at hd
  exact strExt (List.append_cancel_right hd)

theorem natToString_ne {m n : Nat} (h : m ≠ n) : natToString m ≠ natToString n :=
  fun he => h (natToString_inj he)

theorem strAppend_assoc (a b c : String) : a ++ b ++ c = a ++ (b ++ c) :=
  strExt (by simp only [strData_append, List.append_assoc])

/-! ## Content-difference lemmas: a single flipped field changes the hashed
content string -/

theorem contentOf_timestamp_ne (b : Block) (t' : Nat) (ht : t' ≠ b.timestamp) :
    contentOf { b with timestamp := t' } ≠ contentOf b := by
  intro h
  unfold contentOf at h
  simp only at h
  have h1 := strCancelRight h
  have h2 := strCancelRight h1
  have h3 := strCancelLeft h2
  exact natToString_ne ht h3

theorem contentOf_nonce_ne (b : Block) (n' : Nat) (hn : n' ≠ b.nonce) :
    contentOf { b with nonce := n' } ≠ contentOf b := by
  intro h
  unfold contentOf at h
  simp only at h
  have h1 := strCancelLeft h
  exact natToString_ne hn h1

theorem contentOf_previous_hash_ne (b : Block) (p' : String)
    (hp : p' ≠ b.previous_hash) :
    contentOf { b with previous_hash := p' } ≠ contentOf b := by
  intro h
  unfold contentOf at h
  simp only at h
  have h1 := strCancelRight h
  have h2 := strCancelRight h1
  have h3 := strCancelRight h2
  have h4 := strCancelLeft h3
  exact hp h4

theorem contentOf_transactions_ne (b : Block) (ts' : List Transaction)
    (h : txData ts' ≠ txData b.transactions) :
    contentOf { b with transactions := ts' } ≠ contentOf b := by
  intro he
  unfold contentOf at he
  simp only at he
  have h1 := strCancelRight he
  have h2 := strCancelLeft h1
  exact h h2

theorem strJoin_map_split (f : Transaction → String) :
    ∀ (ts : List Transaction) (j : Nat) (hj : j < ts.length),
    strJoin (ts.map f) = strJoin ((ts.take j).map f) ++
      (f (ts.get ⟨j, hj⟩) ++ strJoin ((ts.drop (j + 1)).map f)) := by
  intro ts
  induction ts with
  | nil => intro j hj; simp at hj
  | cons x r ih =>
    intro j hj
    cases j with
    | zero => simp [strJoin]
    | succ j' =>
      have hj' : j' < r.length := by simpa using hj
      simp only [List.map_cons, strJoin, List.take_succ_cons, List.drop_succ_cons,
        List.get_cons_succ]
      rw [ih j' hj']
      exact (strAppend_assoc _ _ _).symm

theorem strJoin_map_set_split (f : Transaction → String) :
    ∀ (ts : List Transaction) (j : Nat), j < ts.length → ∀ (y : Transaction),
    strJoin ((ts.set j y).map f) = strJoin ((ts.take j).map f) ++
      (f y ++ strJoin ((ts.drop (j + 1)).map f)) := by
  intro ts
  induction ts with
  | nil => intro j hj; simp at hj
  | cons x r ih =>
    intro j hj y
    cases j with
    | zero => simp [strJoin]
    | succ j' =>
      have hj' : j' < r.length := by simpa using hj
      simp only [List.set_cons_succ, List.map_cons, strJoin, List.take_succ_cons,
        List.drop_succ_cons]
      rw [ih j' hj']
      exact (strAppend_assoc _ _ _).symm

theorem txRepr_amount_inj (x : Transaction) (a' : Nat)
    (h : txRepr { x with amount := a' } = txRepr x) : a' = x.amount := by
  unfold txRepr at h
  simp only at h
  have h1 := strCancelLeft h
  exact natToString_inj h1

theorem txData_set_amount_ne (ts : List Transaction) (j : Nat)
    (hj : j < ts.length) (a' : Nat) (ha : a' ≠ (ts.get ⟨j, hj⟩).amount) :
    txData (ts.set j { ts.get ⟨j, hj⟩ with amount := a' }) ≠ txData ts := by
  intro h
  unfold txData at h
  rw [strJoin_map_set_split txRepr ts j hj, strJoin_map_split txRepr ts j hj] at h
  have h1 := strCancelLeft h
  have h2 := strCancelRight h1
  exact ha (txRepr_amount_inj (ts.get ⟨j, hj⟩) a' h2)

/-! ## Validation structure lemmas -/

theorem isChainValid_iff_chain' (H : String → String) (d : Nat) :
    ∀ c : List Block, isChainValid H d c = true ↔
      List.Chain' (fun p q => chainStepOk H d p q = true) c := by
  intro c
  induction c with
  | nil => simp [isChainValid]
  | cons p rest ih =>
    cases rest with
    | nil => simp [isChainValid]
    | cons q rest2 =>
      rw [isChainValid, List.chain'_cons, Bool.and_eq_true, ih]

theorem isChainValid_iff_get (H : String → String) (d : Nat) (c : List Block) :
    isChainValid H d c = true ↔ ∀ (i : Nat) (hi : i < c.length - 1),
      chainStepOk H d (c.get ⟨i, by omega⟩) (c.get ⟨i + 1, by omega⟩) = true := by
  rw [isChainValid_iff_chain', List.chain'_iff_get]

theorem chainStepOk_iff (H : String → String) (d : Nat) (prev cur : Block) :
    chainStepOk H d prev cur = true ↔
      cur.hash = calculateHash H cur ∧ cur.previous_hash = prev.hash ∧
      meetsDifficulty d cur.hash = true := by
  simp [chainStepOk, Bool.and_eq_true, and_assoc]

/-- Tampering lemma: replacing the block at position `i + 1` of a valid chain
by a block with the same stored hash but different hashed content makes
validation fail (the stored hash no longer matches the recomputed digest),
provided the hash function is collision-free. -/
theorem isChainValid_set_false (H : String → String)
    (hH : Function.Injective H) (d : Nat) (c : List Block)
    (hval : isChainValid H d c = true) (i : Nat) (hi : i + 1 < c.length)
    (b' : Block) (hhash : b'.hash = (c.get ⟨i + 1, hi⟩).hash)
    (hcont : contentOf b' ≠ contentOf (c.get ⟨i + 1, hi⟩)) :
    isChainValid H d (c.set (i + 1) b') = false := by
  by_contra hne
  have hval' : isChainValid H d (c.set (i + 1) b') = true := by
    cases hb : isChainValid H d (c.set (i + 1) b') with
    | false => exact absurd hb hne
    | true => rfl
  rw [isChainValid_iff_get] at hval'
  have hlen : (c.set (i + 1) b').length = c.length := by simp
  have hi' : i < (c.set (i + 1) b').length - 1 := by omega
  have hstep := hval' i hi'
  rw [chainStepOk_iff] at hstep
  have hget : (c.set (i + 1) b').get ⟨i + 1, by omega⟩ = b' := by
    simp
  rw [hget] at hstep
  have hb'hash : b'.hash = H (contentOf b') := hstep.1
  rw [isChainValid_iff_get] at hval
  have hstep0 := hval i (by omega)
  rw [chainStepOk_iff] at hstep0
  have horig : (c.get ⟨i + 1, by omega⟩).hash =
      H (contentOf (c.get ⟨i + 1, by omega⟩)) := hstep0.1
  have : H (contentOf b') = H (contentOf (c.get ⟨i + 1, hi⟩)) := by
    rw [← hb'hash, hhash]
    exact horig
  exact hcont (hH this)

/-! ## Mining lemmas -/

theorem mineBlock_meets (H : String → String) (d : Nat) :
    ∀ (fuel : Nat) (b b' : Block), mineBlock H d fuel b = some b' →
      meetsDifficulty d b'.hash = true := by
  intro fuel
  induction fuel with
  | zero =>
    intro b b' h
    unfold mineBlock at h
    split at h
    · cases h; assumption
    · cases h
  | succ f ih =>
    intro b b' h
    unfold mineBlock at h
    split at h
    · cases h; assumption
    · exact ih _ _ h

theorem mineBlock_transactions (H : String → String) (d : Nat) :
    ∀ (fuel : Nat) (b b' : Block), mineBlock H d fuel b = some b' →
      b'.transactions = b.transactions := by
  intro fuel
  induction fuel with
  | zero =>
    intro b b' h
    unfold mineBlock at h
    split at h
    · cases h; rfl
    · cases h
  | succ f ih =>
    intro b b' h
    unfold mineBlock at h
    split at h
    · cases h; rfl
    · exact ih (mineStep H b) b' h

theorem mineStep_hash (H : String → String) (b : Block) :
    (mineStep H b).hash = calculateHash H (mineStep H b) := rfl

theorem makeBlock_hash (H : String → String) (i : Nat) (p : String)
    (txs : List Transaction) (t n : Nat) :
    (Block.make H i p txs t n).hash = calculateHash H (Block.make H i p txs t n) :=
  rfl

theorem mineBlock_hash_inv (H : String → String) (d : Nat) :
    ∀ (fuel : Nat) (b b' : Block), b.hash = calculateHash H b →
      mineBlock H d fuel b = some b' → b'.hash = calculateHash H b' := by
  intro fuel
  induction fuel with
  | zero =>
    intro b b' hinv h
    unfold mineBlock at h
    split at h
    · cases h; exact hinv
    · cases h
  | succ f ih =>
    intro b b' hinv h
    unfold mineBlock at h
    split at h
    · cases h; exact hinv
    · exact ih _ _ (mineStep_hash H b) h

theorem meetsDifficulty_zero (h : String) : meetsDifficulty 0 h = true := by
  unfold meetsDifficulty
  rw [List.replicate]
  cases hd : h.data <;> rfl

theorem mineBlock_zero (H : String → String) (fuel : Nat) (b : Block) :
    mineBlock H 0 fuel b = some b := by
  cases fuel <;> simp [mineBlock, meetsDifficulty_zero]

theorem minePending_spec (H : String → String) (fuel : Nat) (st : Blockchain)
    (miner : String) (now : Nat) (st' : Blockchain)
    (h : minePendingTransactions H fuel st miner now = some st') :
    ∃ mined : Block,
      mineBlock H st.difficulty fuel
        (Block.make H ((getLatestBlock st).index + 1) (getLatestBlock st).hash
          (st.pending_transactions ++ [⟨"network", miner, st.mining_reward, none⟩])
          now 0) = some mined ∧
      mined.transactions =
        st.pending_transactions ++ [⟨"network", miner, st.mining_reward, none⟩] ∧
      meetsDifficulty st.difficulty mined.hash = true ∧
      st' = { st with chain := st.chain ++ [mined], pending_transactions := [] } := by
  unfold minePendingTransactions at h
  dsimp only at h
  split at h
  case h_1 mined heq =>
    cases h
    refine ⟨mined, heq, ?_, mineBlock_meets H st.difficulty fuel _ mined heq, rfl⟩
    exact mineBlock_transactions H st.difficulty fuel _ mined heq
  case h_2 => cases h

/-! ## Resolution-loop lemmas -/

theorem cleanMempool_chain (st : Blockchain) :
    (cleanMempoolFromChain st).chain = st.chain := rfl

theorem reconstructBlock_eq (H : String → String) (p : Block) :
    reconstructBlock H p = p := rfl

theorem resolveLoop_cases (H : String → String) (d : Nat) :
    ∀ (cs : List (List Block)) (best : List Block),
      resolveLoop H d cs best best.length = best ∨
      (resolveLoop H d cs best best.length ∈ cs ∧
        (resolveLoop H d cs best best.length).length > best.length ∧
        isChainValid H d (resolveLoop H d cs best best.length) = true) := by
  intro cs
  induction cs with
  | nil => intro best; left; rfl
  | cons c rest ih =>
    intro best
    unfold resolveLoop
    split
    case isTrue hc =>
      rcases ih c with h | ⟨hmem, hlen, hval⟩
      · right
        refine ⟨?_, ?_, ?_⟩
        · rw [h]; exact List.mem_cons_self c rest
        · rw [h]; exact hc.1
        · rw [h]; exact hc.2
      · right
        exact ⟨List.mem_cons_of_mem c hmem, by omega, hval⟩
    case isFalse hc =>
      rcases ih best with h | ⟨hmem, hlen, hval⟩
      · left; exact h
      · right; exact ⟨List.mem_cons_of_mem c hmem, hlen, hval⟩

theorem resolveLoop_length_ge (H : String → String) (d : Nat)
    (cs : List (List Block)) (best : List Block) :
    best.length ≤ (resolveLoop H d cs best best.length).length := by
  rcases resolveLoop_cases H d cs best with h | ⟨_, hlen, _⟩
  · rw [h]
  · omega

theorem resolveLoop_wins (H : String → String) (d : Nat) :
    ∀ (cs : List (List Block)) (best : List Block),
      (∃ c ∈ cs, c.length > best.length ∧ isChainValid H d c = true) →
      (resolveLoop H d cs best best.length).length > best.length := by
  intro cs
  induction cs with
  | nil => intro best h; simp at h
  | cons c rest ih =>
    intro best ⟨c', hmem, hlen, hval⟩
    unfold resolveLoop
    split
    case isTrue hc =>
      have := resolveLoop_length_ge H d rest c
      omega
    case isFalse hc =>
      rcases List.mem_cons.mp hmem with h | h
      · subst h; exact absurd ⟨hlen, hval⟩ hc
      · exact ih best ⟨c', h, hlen, hval⟩

/-! ## Claim theorems -/

/-- C1: chain validation checks, for each index from 1 to the end, hash
integrity against the recomputed digest, linkage of `previous_hash`, and the
difficulty target, so a chain validates true exactly when every adjacent pair
passes all three checks; and flipping a single timestamp, nonce,
previous_hash, or one transaction amount in any non-genesis block of a valid
chain makes validation return false (under collision freeness of the trusted
hash primitive). -/
theorem claim_validate_spec (H : String → String) (hH : Function.Injective H)
    (d : Nat) (c : List Block) :
    (isChainValid H d c = true ↔ ∀ (i : Nat) (hi : i < c.length - 1),
      (c.get ⟨i + 1, by omega⟩).hash = calculateHash H (c.get ⟨i + 1, by omega⟩) ∧
      (c.get ⟨i + 1, by omega⟩).previous_hash = (c.get ⟨i, by omega⟩).hash ∧
      meetsDifficulty d (c.get ⟨i + 1, by omega⟩).hash = true) ∧
    (∀ (i : Nat) (hi : i + 1 < c.length) (t' : Nat),
      isChainValid H d c = true → t' ≠ (c.get ⟨i + 1, hi⟩).timestamp →
      isChainValid H d
        (c.set (i + 1) { c.get ⟨i + 1, hi⟩ with timestamp := t' }) = false) ∧
    (∀ (i : Nat) (hi : i + 1 < c.length) (n' : Nat),
      isChainValid H d c = true → n' ≠ (c.get ⟨i + 1, hi⟩).nonce →
      isChainValid H d
        (c.set (i + 1) { c.get ⟨i + 1, hi⟩ with nonce := n' }) = false) ∧
    (∀ (i : Nat) (hi : i + 1 < c.length) (p' : String),
      isChainValid H d c = true → p' ≠ (c.get ⟨i + 1, hi⟩).previous_hash →
      isChainValid H d
        (c.set (i + 1) { c.get ⟨i + 1, hi⟩ with previous_hash := p' }) = false) ∧
    (∀ (i : Nat) (hi : i + 1 < c.length) (j : Nat)
      (hj : j < (c.get ⟨i + 1, hi⟩).transactions.length) (a' : Nat),
      isChainValid H d c = true →
      a' ≠ ((c.get ⟨i + 1, hi⟩).transactions.get ⟨j, hj⟩).amount →
      isChainValid H d (c.set (i + 1) { c.get ⟨i + 1, hi⟩ with transactions := (c.get ⟨i + 1, hi⟩).transactions.set j { (c.get ⟨i + 1, hi⟩).transactions.get ⟨j, hj⟩ with amount := a' } }) = false) := by
  refine ⟨?_, ?_, ?_, ?_, ?_⟩
  · constructor
    · intro h i hi
      have := (isChainValid_iff_get H d c).mp h i hi
      rwa [chainStepOk_iff] at this
    · intro h
      rw [isChainValid_iff_get]
      intro i hi
      rw [chainStepOk_iff]
      exact h i hi
  · intro i hi t' hval ht
    exact isChainValid_set_false H hH d c hval i hi _ rfl
      (contentOf_timestamp_ne _ t' ht)
  · intro i hi n' hval hn
    exact isChainValid_set_false H hH d c hval i hi _ rfl
      (contentOf_nonce_ne _ n' hn)
  · intro i hi p' hval hp
    exact isChainValid_set_false H hH d c hval i hi _ rfl
      (contentOf_previous_hash_ne _ p' hp)
  · intro i hi j hj a' hval ha
    exact isChainValid_set_false H hH d c hval i hi _ rfl
      (contentOf_transactions_ne _ _ (txData_set_amount_ne _ j hj a' ha))

/-- C1 witness: a concrete two-block valid chain validates true, and flipping
the second block's timestamp makes validation fail. -/
theorem claim_validate_spec_witness :
    isChainValid idHash 0 chainW = true ∧
    isChainValid idHash 0
      (chainW.set 1 { chainW.get ⟨1, by decide⟩ with timestamp := 42 }) = false := by
  refine ⟨by decide, ?_⟩
  exact (claim_validate_spec idHash (fun a b h => h) 0 chainW).2.1 0 (by decide)
    42 (by decide) (by decide)

/-- C2: whenever the (fuelled) mining routine returns, it has appended to the
chain a block meeting the difficulty target and truncated the mempool; and at
difficulty 0 the proof-of-work loop performs zero iterations: the candidate
block is returned unchanged, its nonce still at its initial value. -/
theorem claim_mining_spec :
    (∀ (H : String → String) (fuel : Nat) (st : Blockchain) (miner : String)
      (now : Nat) (st' : Blockchain),
      minePendingTransactions H fuel st miner now = some st' →
      ∃ b : Block, st'.chain = st.chain ++ [b] ∧
        meetsDifficulty st.difficulty b.hash = true ∧
        st'.pending_transactions = []) ∧
    (∀ (H : String → String) (fuel : Nat) (b : Block),
      mineBlock H 0 fuel b = some b) := by
  constructor
  · intro H fuel st miner now st' h
    obtain ⟨mined, _, _, hmeets, hst⟩ := minePending_spec H fuel st miner now st' h
    subst hst
    exact ⟨mined, rfl, hmeets, rfl⟩
  · exact fun H fuel b => mineBlock_zero H fuel b

/-- C2 witness: a concrete difficulty-0 mining run succeeds and clears the
mempool, and difficulty-0 mining returns the candidate block unchanged. -/
theorem claim_mining_spec_witness :
    cSt6.pending_transactions = [] ∧ mineBlock idHash 0 3 g0 = some g0 := by
  refine ⟨?_, claim_mining_spec.2 idHash 3 g0⟩
  obtain ⟨b, _, _, hp⟩ := claim_mining_spec.1 idHash 0 stC6 "M" 1 cSt6 (by decide)
  exact hp

/-- C3: admission rejects with the insufficient-balance error exactly when
the sender is not "network" and its balance is below the amount (the error
carrying sender, balance and amount); on rejection the state — in particular
the mempool — is unchanged; otherwise the transaction is appended to the
mempool. -/
theorem claim_admission_spec (st : Blockchain) (tx : Transaction) :
    ((createTransaction st tx).1.isSome = true ↔
      tx.sender ≠ "network" ∧ getBalance st tx.sender < (tx.amount : Int)) ∧
    (∀ e, (createTransaction st tx).1 = some e →
      e = ⟨tx.sender, getBalance st tx.sender, tx.amount⟩ ∧
      (createTransaction st tx).2 = st) ∧
    ((createTransaction st tx).1 = none →
      (createTransaction st tx).2 =
        { st with pending_transactions := st.pending_transactions ++ [tx] }) := by
  unfold createTransaction
  split
  case isTrue hc =>
    refine ⟨by simpa using hc, ?_, ?_⟩
    · intro e he
      simp only [Option.some.injEq] at he
      exact ⟨he.symm, rfl⟩
    · intro hn
      simp at hn
  case isFalse hc =>
    refine ⟨by simpa using hc, ?_, ?_⟩
    · intro e he
      simp at he
    · intro _
      rfl

/-- C3 witness: a concrete overspend (sender "B" with balance 0 sending 50)
is rejected with the expected error data and leaves the ledger unchanged. -/
theorem claim_admission_spec_witness :
    (createTransaction stC5 txC3).1 = some ⟨"B", 0, 50⟩ ∧
    (createTransaction stC5 txC3).2 = stC5 :=
  ⟨by decide, ((claim_admission_spec stC5 txC3).2.1 ⟨"B", 0, 50⟩ (by decide)).2⟩

/-- C4: chain resolution replaces the local chain iff some fetched candidate
chain is strictly longer than the local chain and passes validation; the
adopted chain is itself such a candidate (so a chain of equal or shorter
length never replaces the local one); without a winner the state is
unchanged. -/
theorem claim_resolve_spec (H : String → String) (st : Blockchain)
    (cands : List (List Block)) :
    ((fetchAllPeersAndResolve H st cands).2 = true ↔
      ∃ c ∈ cands, c.length > st.chain.length ∧
        isChainValid H st.difficulty c = true) ∧
    ((fetchAllPeersAndResolve H st cands).2 = true →
      (fetchAllPeersAndResolve H st cands).1.chain ∈ cands ∧
      (fetchAllPeersAndResolve H st cands).1.chain.length > st.chain.length ∧
      isChainValid H st.difficulty (fetchAllPeersAndResolve H st cands).1.chain
        = true) ∧
    ((fetchAllPeersAndResolve H st cands).2 = false →
      (fetchAllPeersAndResolve H st cands).1 = st) := by
  unfold fetchAllPeersAndResolve
  dsimp only
  by_cases hbest :
      resolveLoop H st.difficulty cands st.chain st.chain.length = st.chain
  · rw [if_neg (fun hne => hne hbest)]
    refine ⟨?_, ?_, ?_⟩
    · constructor
      · intro h
        simp at h
      · rintro ⟨c, hmem, hlen, hval⟩
        have := resolveLoop_wins H st.difficulty cands st.chain ⟨c, hmem, hlen, hval⟩
        rw [hbest] at this
        omega
    · intro h
      simp at h
    · intro _
      rfl
  · rw [if_pos hbest]
    refine ⟨?_, ?_, ?_⟩
    · constructor
      · intro _
        rcases resolveLoop_cases H st.difficulty cands st.chain with h | ⟨hmem, hlen, hval⟩
        · exact absurd h hbest
        · exact ⟨_, hmem, hlen, hval⟩
      · intro _
        rfl
    · intro _
      rcases resolveLoop_cases H st.difficulty cands st.chain with h | ⟨hmem, hlen, hval⟩
      · exact absurd h hbest
      · exact ⟨hmem, hlen, hval⟩
    · intro h
      simp at h

/-- C4 witness: a concrete strictly longer valid candidate does replace a
one-block local chain. -/
theorem claim_resolve_spec_witness :
    (fetchAllPeersAndResolve idHash stW4 [chainW]).2 = true :=
  (claim_resolve_spec idHash stW4 [chainW]).1.mpr
    ⟨chainW, by decide, by decide, by decide⟩

/-- C5 counterexample: an unsigned transaction (`signature = none`) from a
non-network sender with sufficient balance is accepted into the mempool by
admission — signatures are never verified on this path, refuting "a
transaction with an absent or invalid signature is never admitted". -/
theorem claim_signature_counterexample :
    txC5.sender ≠ "network" ∧ txC5.signature = none ∧
    (createTransaction stC5 txC5).1 = none ∧
    (createTransaction stC5 txC5).2.pending_transactions =
      [⟨"network", "A", 100, none⟩, txC5] := by decide

/-- C5 (amended): mempool admission checks only the sender's balance and is
entirely independent of the signature field; any transaction from a
non-network sender with sufficient balance — signed, unsigned or garbage — is
appended to the mempool (`Transaction.is_valid` implements the signature
check but is never invoked on admission). -/
theorem claim_admission_ignores_signature (st : Blockchain) (tx : Transaction)
    (h : ¬(tx.sender ≠ "network" ∧ getBalance st tx.sender < (tx.amount : Int))) :
    (createTransaction st tx).1 = none ∧
    (createTransaction st tx).2 =
      { st with pending_transactions := st.pending_transactions ++ [tx] } ∧
    ∀ sig, (createTransaction st { tx with signature := sig }).1 =
      (createTransaction st tx).1 := by
  refine ⟨?_, ?_, ?_⟩
  · unfold createTransaction
    rw [if_neg h]
  · unfold createTransaction
    rw [if_neg h]
  · intro sig
    unfold createTransaction
    simp only [if_neg h]

/-- C5 witness: the amended admission theorem applied at the concrete
unsigned transaction. -/
theorem claim_admission_ignores_signature_witness :
    (createTransaction stC5 txC5).1 = none :=
  (claim_admission_ignores_signature stC5 txC5 (by decide)).1

/-- C6 counterexample: with a pending mint of 5 to "A", mining yields balance
5 for "A", while the claimed linearity (prior balance plus the block's
confirmed received-minus-sent for "A") predicts 10: `get_balance` already
counted the pending transaction before it was confirmed. -/
theorem claim_balance_counterexample :
    newBalC6 = some 5 ∧ claimedBalC6 = some 10 ∧ newBalC6 ≠ claimedBalC6 := by
  decide

/-- C6 (amended): `get_balance` sums over the chain and then the mempool, so
mining — which moves the whole mempool into the new block together with the
reward transaction — changes any address's balance exactly by the reward
transaction's effect. -/
theorem claim_balance_mining (H : String → String) (fuel : Nat)
    (st : Blockchain) (miner : String) (now : Nat) (st' : Blockchain)
    (a : String) (h : minePendingTransactions H fuel st miner now = some st') :
    getBalance st' a = getBalance st a +
      txBalanceEffect a ⟨"network", miner, st.mining_reward, none⟩ := by
  obtain ⟨mined, _, htx, _, hst⟩ := minePending_spec H fuel st miner now st' h
  subst hst
  simp [getBalance, balanceOf, blockTxEffect, htx, List.map_append,
    List.sum_append]
  ring

/-- C6 witness: the amended balance relation instantiated on the concrete
mining run. -/
theorem claim_balance_mining_witness :
    getBalance cSt6 "A" = getBalance stC6 "A" + txBalanceEffect "A" rewardC6 :=
  claim_balance_mining idHash 0 stC6 "M" 1 cSt6 "A" (by decide)

/-- C7: the stored hash equals the recomputed digest immediately after
construction and after every iteration of the mining loop, and the invariant
is carried through the whole mining run. -/
theorem claim_hash_invariant :
    (∀ (H : String → String) (i : Nat) (p : String) (txs : List Transaction)
      (t n : Nat), (Block.make H i p txs t n).hash =
        calculateHash H (Block.make H i p txs t n)) ∧
    (∀ (H : String → String) (b : Block),
      (mineStep H b).hash = calculateHash H (mineStep H b)) ∧
    (∀ (H : String → String) (d fuel : Nat) (b b' : Block),
      b.hash = calculateHash H b → mineBlock H d fuel b = some b' →
      b'.hash = calculateHash H b') :=
  ⟨fun H i p txs t n => makeBlock_hash H i p txs t n,
   fun H b => mineStep_hash H b,
   fun H d fuel b b' hinv h => mineBlock_hash_inv H d fuel b b' hinv h⟩

/-- C7 witness: the invariant-preservation conjunct applied to a concrete
difficulty-0 mining run on the genesis block. -/
theorem claim_hash_invariant_witness : g0.hash = calculateHash idHash g0 :=
  claim_hash_invariant.2.2 idHash 0 0 g0 g0 (by decide) (by decide)

/-- C8 counterexample: ledger construction at times 0 and 1 produces unequal
genesis blocks (the genesis timestamp is the construction time), refuting
determinism across runs. -/
theorem claim_genesis_counterexample :
    createGenesisBlock idHash 0 ≠ createGenesisBlock idHash 1 ∧
    Blockchain.init idHash 3 0 ≠ Blockchain.init idHash 3 1 := by decide

/-- C8 (amended): genesis creation is deterministic only given the
construction time: index, previous_hash and the single zero-amount mint
transaction are fixed, equal construction times give identical genesis
blocks, and distinct construction times give distinct blocks whose hashes
also differ whenever the hash primitive is injective. -/
theorem claim_genesis_spec (H : String → String) (t t' : Nat) :
    (createGenesisBlock H t).index = 0 ∧
    (createGenesisBlock H t).previous_hash = "0" ∧
    (createGenesisBlock H t).transactions = [⟨"network", "genesis", 0, none⟩] ∧
    (createGenesisBlock H t).timestamp = t ∧
    (t = t' → createGenesisBlock H t = createGenesisBlock H t') ∧
    (createGenesisBlock H t = createGenesisBlock H t' → t = t') ∧
    (Function.Injective H → t ≠ t' →
      (createGenesisBlock H t).hash ≠ (createGenesisBlock H t').hash) := by
  refine ⟨rfl, rfl, rfl, rfl, ?_, ?_, ?_⟩
  · intro h
    rw [h]
  · intro h
    exact congrArg Block.timestamp h
  · intro hH hne he
    have hc : contentOf ⟨0, "0", t, [⟨"network", "genesis", 0, none⟩], 0, ""⟩ =
        contentOf ⟨0, "0", t', [⟨"network", "genesis", 0, none⟩], 0, ""⟩ := hH he
    exact contentOf_timestamp_ne
      ⟨0, "0", t', [⟨"network", "genesis", 0, none⟩], 0, ""⟩ t hne hc

/-- C8 witness: the amended genesis theorem at concrete times 0 and 1 under
the concrete injective hash. -/
theorem claim_genesis_spec_witness :
    (createGenesisBlock idHash 0).index = 0 ∧
    (createGenesisBlock idHash 0).hash ≠ (createGenesisBlock idHash 1).hash :=
  ⟨(claim_genesis_spec idHash 0 1).1,
   (claim_genesis_spec idHash 0 1).2.2.2.2.2.2 (fun a b h => h) (by decide)⟩

/-- C9: evaluation at the failing input: an incoming peer transaction whose
(sender, receiver, amount) triple is already pending is admitted again — the
`tx in chain.pending_transactions` check compares Python object identity and
never matches a freshly deserialized object, so the claimed already-pending
skip never fires. -/
theorem claim_merge_duplicate_pending :
    mergeMempool chainC9 pendingC9 1 [txC9] = ([⟨txC9, 0⟩, ⟨txC9, 1⟩], 1) := by
  decide

/-- C10: a received foreign block is reconstructed with its payload hash
taken verbatim (reconstruction is the identity on the payload), and is
accepted by appending whenever its previous_hash equals the local head's
hash — no hash recomputation check and no difficulty check guard the accept
path; on a head mismatch the state is unchanged and resolution is signalled.
-/
theorem claim_receive_block_spec (H : String → String) (st : Blockchain)
    (p : Block) :
    reconstructBlock H p = p ∧
    ((getLatestBlock st).hash = p.previous_hash →
      receiveBlock H st p =
        (cleanMempoolFromChain { st with chain := st.chain ++ [p] }, true)) ∧
    ((getLatestBlock st).hash ≠ p.previous_hash →
      receiveBlock H st p = (st, false)) := by
  refine ⟨reconstructBlock_eq H p, ?_, ?_⟩
  · intro hmatch
    unfold receiveBlock
    dsimp only
    rw [reconstructBlock_eq]
    rw [if_pos hmatch]
  · intro hne
    unfold receiveBlock
    dsimp only
    rw [reconstructBlock_eq]
    rw [if_neg hne]

/-- C10 witness: a payload whose stored hash neither matches the recomputed
digest nor meets the local difficulty is nevertheless accepted, because it
extends the local head. -/
theorem claim_receive_block_witness :
    receiveBlock idHash stW10 pBad =
      (cleanMempoolFromChain { stW10 with chain := stW10.chain ++ [pBad] },
        true) ∧
    pBad.hash ≠ calculateHash idHash pBad ∧
    meetsDifficulty stW10.difficulty pBad.hash = false :=
  ⟨(claim_receive_block_spec idHash stW10 pBad).2.1 (by decide), by decide,
   by decide⟩

end CryptoSpike
